import Mathlib

/-!
Verification development for the hybrid mount core: the mount-plan
executor (`src/core/executor.rs`) and the HymoFS kernel-channel client
(`src/mount/hymofs.rs`), shallowly embedded in Lean.

Filesystem paths are modelled as lists of normal components
(`PathBuf` restricted to normal components, which is the shape every
path handled by this core has: module roots, partition layer paths,
staging directories).  External collaborators (the overlay adapter,
the magic-mount adapter, the temp-dir utility, the `WalkDir` iterator
and the kernel control file) are modelled as oracles describing one
execution trace, since their internals are out of scope.
-/

namespace HybridMount

/-- A filesystem path as its list of normal components.
`Path::parent` drops the last component (none for the empty path);
`Path::file_name` is the last component. -/
abbrev FsPath := List String

/-- `PathBuf::join` with a single component: pushing an empty component
leaves the component list unchanged (Rust renders it as a trailing
slash), otherwise it appends. -/
def FsPath.join (p : FsPath) (name : String) : FsPath :=
  if name = "" then p else p ++ [name]

/-- `Path::parent`: `None` for the empty path, else the path without its
last component. -/
def FsPath.parent (p : FsPath) : Option FsPath :=
  match p with
  | [] => none
  | _ :: _ => some p.dropLast

/-- `Path::file_name`: the last component, if any. -/
def FsPath.fileName (p : FsPath) : Option String :=
  p.getLast?

/-- `Path::display().to_string()`: components joined by a separator
(opaque to this development; only passed to the overlay oracle). -/
def FsPath.display (p : FsPath) : String :=
  String.intercalate "/" p

/-- Adjacent deduplication, the behaviour of Rust `Vec::dedup`:
removes consecutive equal elements. -/
def dedupAdj {α : Type} [DecidableEq α] : List α → List α
  | [] => []
  | [a] => [a]
  | a :: b :: rest =>
      if a = b then dedupAdj (b :: rest) else a :: dedupAdj (b :: rest)

/-- Rust `v.sort(); v.dedup()`: sort by a total order, then drop (now
adjacent) duplicates.  The total order is given by an injective numeric
key (a canonical stand-in for the `Ord` order of the Rust values); the
result is the strictly sorted list of distinct elements. -/
def sortDedup {α : Type} [DecidableEq α] (key : α → Nat) (l : List α) : List α :=
  dedupAdj (l.insertionSort (fun a b => key a ≤ key b))

/-- Injective pairing-based numeric encoding of a list of numbers. -/
def encodeNatList : List Nat → Nat
  | [] => 0
  | n :: rest => Nat.pair n (encodeNatList rest) + 1

/-- Injective numeric key for strings (by character codes): induces the
canonical total order `sortDedup` uses on ID lists. -/
def encodeStr (s : String) : Nat :=
  encodeNatList (s.data.map Char.toNat)

/-- Injective numeric key for paths: induces the canonical total order
`sortDedup` uses on path lists. -/
def encodePath (p : FsPath) : Nat :=
  encodeNatList (p.map encodeStr)

/-- Number of occurrences of an element in a list. -/
def countOcc {α : Type} [DecidableEq α] (a : α) : List α → Nat
  | [] => 0
  | b :: l => (if b = a then 1 else 0) + countOcc a l

/-! ## Mount plan executor (`src/core/executor.rs`) -/

/-- One overlay operation of the plan: a target path and the ordered
lowerdir layer paths (`MountPlan.overlay_ops` entries). -/
structure OverlayOp where
  target : String
  lowerdirs : List FsPath
deriving DecidableEq

/-- The precomputed mount plan (`core::planner::MountPlan`), read-only
input of `execute`. -/
structure MountPlan where
  overlay_ops : List OverlayOp
  magic_module_paths : List FsPath
  overlay_module_ids : List String
deriving DecidableEq

/-- The configuration fields `execute` reads
(`conf::config::Config`). -/
structure Config where
  tempdir : Option FsPath
  mountsource : String
  partitions : List String
  disable_umount : Bool
deriving DecidableEq

/-- `ExecutionResult`: module IDs mounted via the union mechanism and
via replication. -/
structure ExecutionResult where
  overlay_module_ids : List String
  magic_module_ids : List String
deriving DecidableEq

/-- The hard errors `execute` can propagate: failure of
`utils::select_temp_dir` and failure of `utils::ensure_temp_dir` (the
only `?` operators in its body). -/
inductive ExecErr where
  | selectFail
  | ensureFail
deriving DecidableEq

/-- One execution trace of the external collaborators consumed by
`execute`: the overlay adapter's outcome per call (keyed by the exact
arguments the code passes it), the temp-dir utility's selection
outcome, `ensure_temp_dir`'s outcome per directory, and the magic-mount
adapter's outcome for the single batch call. -/
structure ExecEnv where
  overlayOk : String → List String → Bool
  selectTempDir : Option FsPath
  ensureOk : FsPath → Bool
  magicOk : Bool

/-- `extract_id`: `path.parent().and_then(|p| p.file_name())` as a
string — the Module ID of a partition layer path. -/
def extract_id (path : FsPath) : Option String :=
  (FsPath.parent path).bind FsPath.fileName

/-- `extract_module_root`: `partition_path.parent()`. -/
def extract_module_root (partition_path : FsPath) : Option FsPath :=
  FsPath.parent partition_path

/-- The per-layer fallback push of the overlay loop: derive the module
root and Module ID of a layer path; push the root onto the magic queue
and (when derivable) the ID onto the fallback-ID list. -/
def pushLayer (acc : List FsPath × List String) (layer_path : FsPath) :
    List FsPath × List String :=
  match extract_module_root layer_path with
  | none => acc
  | some root =>
      match extract_id layer_path with
      | none => (acc.1 ++ [root], acc.2)
      | some id => (acc.1 ++ [root], acc.2 ++ [id])

/-- The overlay-operation loop of `execute` (step 1): attempts each
union mount; on failure pushes, for every layer path, the module root
onto the magic queue and the Module ID onto the fallback-ID list;
always continues with the remaining operations. -/
def processOps (env : ExecEnv) :
    List OverlayOp → List FsPath → List String → List FsPath × List String
  | [], magicQueue, fallbackIds => (magicQueue, fallbackIds)
  | op :: rest, magicQueue, fallbackIds =>
      let lowerdirStrings := op.lowerdirs.map FsPath.display
      if env.overlayOk op.target lowerdirStrings then
        processOps env rest magicQueue fallbackIds
      else
        let pushed := op.lowerdirs.foldl pushLayer (magicQueue, fallbackIds)
        processOps env rest pushed.1 pushed.2

/-- The magic queue and fallback-ID list after the overlay loop, started
from `plan.magic_module_paths` and an empty fallback list. -/
def opsResult (env : ExecEnv) (plan : MountPlan) : List FsPath × List String :=
  processOps env plan.overlay_ops plan.magic_module_paths []

/-- The deduplicated replication batch (`magic_queue.sort(); magic_queue.dedup()`)
handed to the replication adapter. -/
def magicBatch (env : ExecEnv) (plan : MountPlan) : List FsPath :=
  sortDedup encodePath (opsResult env plan).1

/-- Staging temp-dir resolution: the configured override if present,
else `utils::select_temp_dir()?`. -/
def resolveTempDir (env : ExecEnv) (config : Config) : Except ExecErr FsPath :=
  match config.tempdir with
  | some t => Except.ok t
  | none =>
      match env.selectTempDir with
      | some t => Except.ok t
      | none => Except.error ExecErr.selectFail

/-- The overlay ID set after the fallback adjustment
(`final_overlay_ids.retain(..)`, guarded by `!fallback_ids.is_empty()`),
before the final canonicalization. -/
def finalOverlayIdsOf (env : ExecEnv) (plan : MountPlan) : List String :=
  if ((opsResult env plan).2).isEmpty then plan.overlay_module_ids
  else plan.overlay_module_ids.filter (fun id => !((opsResult env plan).2.contains id))

/-- The replication Module IDs re-derived from the deduplicated queue's
basenames (the `path.file_name()` loop). -/
def magicIdsOf (env : ExecEnv) (plan : MountPlan) : List String :=
  (magicBatch env plan).filterMap FsPath.fileName

/-- `execute(plan, config)`.  The second component records the
`cleanup_temp_dir` calls performed before returning. -/
def execute (env : ExecEnv) (plan : MountPlan) (config : Config) :
    Except ExecErr ExecutionResult × List FsPath :=
  if (magicBatch env plan).isEmpty then
    (Except.ok ⟨sortDedup encodeStr (finalOverlayIdsOf env plan), sortDedup encodeStr []⟩, [])
  else
    match resolveTempDir env config with
    | Except.error e => (Except.error e, [])
    | Except.ok tempdir =>
        if env.ensureOk tempdir then
          (Except.ok ⟨sortDedup encodeStr (finalOverlayIdsOf env plan),
             sortDedup encodeStr (if env.magicOk then magicIdsOf env plan else [])⟩,
            [tempdir])
        else
          (Except.error ExecErr.ensureFail, [])

/-- Whether an `Except` value is a success. -/
def isOkE {ε α : Type} : Except ε α → Bool
  | Except.ok _ => true
  | Except.error _ => false

instance {ε α : Type} [DecidableEq ε] [DecidableEq α] : DecidableEq (Except ε α) :=
  fun x y =>
    match x, y with
    | Except.ok a, Except.ok b =>
        if h : a = b then isTrue (by rw [h])
        else isFalse (fun he => h (Except.ok.inj he))
    | Except.error a, Except.error b =>
        if h : a = b then isTrue (by rw [h])
        else isFalse (fun he => h (Except.error.inj he))
    | Except.ok _, Except.error _ => isFalse (fun he => Except.noConfusion he)
    | Except.error _, Except.ok _ => isFalse (fun he => Except.noConfusion he)

/-! ## HymoFS kernel-channel client (`src/mount/hymofs.rs`) -/

/-- `EXPECTED_PROTOCOL_VERSION`. -/
def EXPECTED_PROTOCOL_VERSION : Int := 3

/-- `HymoFsStatus`. -/
inductive HymoFsStatus where
  | Available
  | NotPresent
  | KernelTooOld
  | ModuleTooOld
deriving DecidableEq

/-- The observable state of the control pseudo-file `/proc/hymo_ctl`:
whether `Path::exists()` holds, and what `fs::read_to_string` returns
(`none` models a failed read). -/
structure CtlFile where
  ctlExists : Bool
  ctlRead : Option String

/-- The first line of a string, as Rust `str::lines().next()`: `None`
on the empty string; otherwise everything before the first newline,
with one trailing carriage return stripped. -/
def firstLine (s : String) : Option String :=
  if s = "" then none
  else
    let l := (s.splitOn "\n").headD ""
    some (if l.endsWith "\r" then l.dropRight 1 else l)

/-- Rust `str::parse::<i32>()`: optional sign, at least one digit,
value within the `i32` range. -/
def parseI32 (s : String) : Option Int :=
  let sign : Int := if s.startsWith "-" then -1 else 1
  let digits := if s.startsWith "-" || s.startsWith "+" then s.drop 1 else s
  match digits.toNat? with
  | none => none
  | some n =>
      let v := sign * (n : Int)
      if -2147483648 ≤ v ∧ v ≤ 2147483647 then some v else none

/-- `get_protocol_version`: read the control file, take the first line,
strip the fixed banner text, parse the remainder as an `i32`. -/
def get_protocol_version (st : CtlFile) : Option Int :=
  match st.ctlRead with
  | none => none
  | some content =>
      match firstLine content with
      | none => none
      | some line =>
          if line.startsWith "HymoFS Protocol: " then
            parseI32 (line.drop "HymoFS Protocol: ".length)
          else none

/-- `check_status`: `NotPresent` if the control path is absent or the
version cannot be obtained; otherwise compare against the expected
constant. -/
def check_status (st : CtlFile) : HymoFsStatus :=
  if !st.ctlExists then HymoFsStatus.NotPresent
  else
    match get_protocol_version st with
    | none => HymoFsStatus.NotPresent
    | some kernel_version =>
        if kernel_version ≠ EXPECTED_PROTOCOL_VERSION then
          if kernel_version < EXPECTED_PROTOCOL_VERSION then HymoFsStatus.KernelTooOld
          else HymoFsStatus.ModuleTooOld
        else HymoFsStatus.Available

/-- `is_available()`. -/
def is_available (st : CtlFile) : Bool :=
  check_status st = HymoFsStatus.Available

/-- A command written to the control channel, structurally: the line
`send_cmd` would emit.  `add` carries the two paths in the order the
code formats them (first the path passed as `src`, then `target`) and
the numeric type tag (`file_type.unwrap_or(0)`). -/
inductive Cmd where
  | clear
  | add (src : FsPath) (target : FsPath) (tag : Nat)
  | delete (src : FsPath)
  | hide (path : FsPath)
  | inject (dir : FsPath)
deriving DecidableEq

/-- `add_rule(src, target, file_type)`. -/
def add_rule (src : FsPath) (target : FsPath) (file_type : Option Nat) : Cmd :=
  Cmd.add src target (file_type.getD 0)

/-- `delete_rule(src)`. -/
def delete_rule (src : FsPath) : Cmd :=
  Cmd.delete src

/-- `hide_path(path)`. -/
def hide_path (path : FsPath) : Cmd :=
  Cmd.hide path

/-- `inject_dir(dir)`. -/
def inject_dir (dir : FsPath) : Cmd :=
  Cmd.inject dir

/-- The classification `inject_directory` reads off a traversal entry:
`entry.file_type()` plus, for character devices, the `rdev` from
`entry.metadata()` (`none` models a failed metadata read). -/
inductive EntryKind where
  | file
  | symlink
  | charDev (rdevInfo : Option Nat)
  | dir
  | other
deriving DecidableEq

/-- One step of the `WalkDir::new(module_dir).min_depth(1)` iterator:
either an entry, given by its path relative to the module directory and
its kind, or a traversal read error. -/
inductive WalkItem where
  | entry (relPath : FsPath) (kind : EntryKind)
  | readErr
deriving DecidableEq

/-- A module directory as the client observes it: existence,
directory-ness, and the traversal sequence `WalkDir` yields for it
(root excluded, every entry exactly once). -/
structure ModuleDir where
  present : Bool
  isDirectory : Bool
  walk : List WalkItem

/-- The transport oracle: whether the single-line write of a given
command to the control file succeeds (`send_cmd`'s only failure mode is
a failed open/write). -/
structure ProtoEnv where
  sendOk : Cmd → Bool

/-- Errors `inject_directory` / `delete_directory_rules` can propagate:
a failed command write, a traversal read error, a failed metadata
read. -/
inductive ProtoErr where
  | sendFail (c : Cmd)
  | walkFail
  | metaFail
deriving DecidableEq

/-- The entry loop of `inject_directory`: for each traversal entry at
its re-rooted target path, a file sends an `add` with tag 8, a symlink
an `add` with tag 10, a zero-rdev character device a `hide`, a non-zero
character device nothing, a directory an `inject`; any failure aborts
the loop at once.  Returns the successfully sent commands and the
error, if any. -/
def injectLoop (env : ProtoEnv) (target_base module_dir : FsPath) :
    List WalkItem → List Cmd → List Cmd × Option ProtoErr
  | [], acc => (acc, none)
  | WalkItem.readErr :: _, acc => (acc, some ProtoErr.walkFail)
  | WalkItem.entry rel kind :: rest, acc =>
      let target_path := target_base ++ rel
      let current_path := module_dir ++ rel
      match kind with
      | EntryKind.file =>
          let c := add_rule target_path current_path (some 8)
          if env.sendOk c then injectLoop env target_base module_dir rest (acc ++ [c])
          else (acc, some (ProtoErr.sendFail c))
      | EntryKind.symlink =>
          let c := add_rule target_path current_path (some 10)
          if env.sendOk c then injectLoop env target_base module_dir rest (acc ++ [c])
          else (acc, some (ProtoErr.sendFail c))
      | EntryKind.charDev rdevInfo =>
          match rdevInfo with
          | none => (acc, some ProtoErr.metaFail)
          | some rdev =>
              if rdev = 0 then
                let c := hide_path target_path
                if env.sendOk c then injectLoop env target_base module_dir rest (acc ++ [c])
                else (acc, some (ProtoErr.sendFail c))
              else injectLoop env target_base module_dir rest acc
      | EntryKind.dir =>
          let c := inject_dir target_path
          if env.sendOk c then injectLoop env target_base module_dir rest (acc ++ [c])
          else (acc, some (ProtoErr.sendFail c))
      | EntryKind.other => injectLoop env target_base module_dir rest acc

/-- `inject_directory(target_base, module_dir)`: no-op for an absent or
non-directory module dir; otherwise mark the target base as an
injection boundary, then run the entry loop. -/
def inject_directory (env : ProtoEnv) (target_base module_dir : FsPath)
    (md : ModuleDir) : List Cmd × Option ProtoErr :=
  if !md.present || !md.isDirectory then ([], none)
  else
    let c0 := inject_dir target_base
    if env.sendOk c0 then injectLoop env target_base module_dir md.walk [c0]
    else ([], some (ProtoErr.sendFail c0))

/-- The entry loop of `delete_directory_rules`: one `delete` per
traversal entry at its re-rooted target path, regardless of kind; any
failure aborts the loop at once. -/
def deleteLoop (env : ProtoEnv) (target_base : FsPath) :
    List WalkItem → List Cmd → List Cmd × Option ProtoErr
  | [], acc => (acc, none)
  | WalkItem.readErr :: _, acc => (acc, some ProtoErr.walkFail)
  | WalkItem.entry rel _ :: rest, acc =>
      let c := delete_rule (target_base ++ rel)
      if env.sendOk c then deleteLoop env target_base rest (acc ++ [c])
      else (acc, some (ProtoErr.sendFail c))

/-- `delete_directory_rules(target_base, module_dir)`. -/
def delete_directory_rules (env : ProtoEnv) (target_base module_dir : FsPath)
    (md : ModuleDir) : List Cmd × Option ProtoErr :=
  if !md.present || !md.isDirectory then ([], none)
  else deleteLoop env target_base md.walk []

/-- The commands one successfully processed traversal entry contributes
in `inject_directory` (the per-kind dispatch of the loop body). -/
def emitFor (target_base module_dir : FsPath) : WalkItem → List Cmd
  | WalkItem.readErr => []
  | WalkItem.entry rel kind =>
      match kind with
      | EntryKind.file => [add_rule (target_base ++ rel) (module_dir ++ rel) (some 8)]
      | EntryKind.symlink => [add_rule (target_base ++ rel) (module_dir ++ rel) (some 10)]
      | EntryKind.charDev rdevInfo =>
          match rdevInfo with
          | none => []
          | some rdev => if rdev = 0 then [hide_path (target_base ++ rel)] else []
      | EntryKind.dir => [inject_dir (target_base ++ rel)]
      | EntryKind.other => []

/-- The command one traversal entry contributes in
`delete_directory_rules`. -/
def emitDeleteFor (target_base : FsPath) : WalkItem → List Cmd
  | WalkItem.readErr => []
  | WalkItem.entry rel _ => [delete_rule (target_base ++ rel)]

/-- Whether the `inject_directory` loop processes a traversal item
without aborting: the item is a readable entry and every command it
requires is sent successfully. -/
def injectItemOk (env : ProtoEnv) (target_base module_dir : FsPath) : WalkItem → Bool
  | WalkItem.readErr => false
  | WalkItem.entry rel kind =>
      match kind with
      | EntryKind.file => env.sendOk (add_rule (target_base ++ rel) (module_dir ++ rel) (some 8))
      | EntryKind.symlink => env.sendOk (add_rule (target_base ++ rel) (module_dir ++ rel) (some 10))
      | EntryKind.charDev rdevInfo =>
          match rdevInfo with
          | none => false
          | some rdev => if rdev = 0 then env.sendOk (hide_path (target_base ++ rel)) else true
      | EntryKind.dir => env.sendOk (inject_dir (target_base ++ rel))
      | EntryKind.other => true

/-- Whether the `delete_directory_rules` loop processes a traversal item
without aborting. -/
def deleteItemOk (env : ProtoEnv) (target_base : FsPath) : WalkItem → Bool
  | WalkItem.readErr => false
  | WalkItem.entry rel _ => env.sendOk (delete_rule (target_base ++ rel))

/-! ## Concrete instances used to instantiate the theorems -/

/-- A trace in which the `/system` overlay mount fails and the
`/vendor` one succeeds; staging selection and creation succeed; the
replication batch succeeds. -/
def envA : ExecEnv :=
  { overlayOk := fun t _ => t == "/vendor"
    selectTempDir := some ["tmp", "hybrid"]
    ensureOk := fun _ => true
    magicOk := true }

/-- The same trace with the replication adapter failing. -/
def envB : ExecEnv := { envA with magicOk := false }

/-- Overlay operation for `/system` with module alpha's system layer. -/
def opFail : OverlayOp :=
  { target := "/system", lowerdirs := [["data", "modules", "alpha", "system"]] }

/-- Overlay operation for `/vendor` with module alpha's vendor layer. -/
def opOk : OverlayOp :=
  { target := "/vendor", lowerdirs := [["data", "modules", "alpha", "vendor"]] }

/-- A plan whose `/system` operation will fail under `envA`. -/
def planA : MountPlan :=
  { overlay_ops := [opFail, opOk]
    magic_module_paths := []
    overlay_module_ids := ["alpha", "beta"] }

/-- A configuration with no staging override. -/
def configA : Config :=
  { tempdir := none
    mountsource := "hybrid"
    partitions := ["system", "vendor"]
    disable_umount := false }

/-- Result of `execute envA planA configA`. -/
def resA : ExecutionResult :=
  { overlay_module_ids := ["beta"], magic_module_ids := ["alpha"] }

/-- Result of `execute envB planA configA`. -/
def resB : ExecutionResult :=
  { overlay_module_ids := ["beta"], magic_module_ids := [] }

/-- A trace in which `ensure_temp_dir` fails. -/
def envC4 : ExecEnv :=
  { overlayOk := fun _ _ => true
    selectTempDir := some ["tmp"]
    ensureOk := fun _ => false
    magicOk := true }

/-- A plan consisting only of one magic module. -/
def planC4 : MountPlan :=
  { overlay_ops := []
    magic_module_paths := [["data", "modules", "alpha"]]
    overlay_module_ids := [] }

/-- A configuration with a staging override. -/
def configC4 : Config :=
  { tempdir := some ["tmp"]
    mountsource := "hybrid"
    partitions := []
    disable_umount := false }

/-- A fully succeeding trace. -/
def envC5 : ExecEnv :=
  { overlayOk := fun _ _ => true
    selectTempDir := none
    ensureOk := fun _ => true
    magicOk := true }

/-- A plan naming module alpha both in the intended overlay ID set and
as a magic module root. -/
def planC5 : MountPlan :=
  { overlay_ops := []
    magic_module_paths := [["mods", "alpha"]]
    overlay_module_ids := ["alpha"] }

/-- Result of `execute envC5 planC5 configC4`: alpha reported by both
mechanisms. -/
def resC5 : ExecutionResult :=
  { overlay_module_ids := ["alpha"], magic_module_ids := ["alpha"] }

/-- A plan with disjoint overlay and magic module sets. -/
def planD : MountPlan :=
  { overlay_ops := [opOk]
    magic_module_paths := [["mods", "gamma"]]
    overlay_module_ids := ["alpha"] }

/-- Result of `execute envC5 planD configC4`. -/
def resD : ExecutionResult :=
  { overlay_module_ids := ["alpha"], magic_module_ids := ["gamma"] }

/-- A trace in which every overlay mount fails. -/
def env6 : ExecEnv :=
  { overlayOk := fun _ _ => false
    selectTempDir := some ["tmp"]
    ensureOk := fun _ => true
    magicOk := true }

/-- Two operations carrying layers of the same module alpha on two
partitions: both fail under `env6`, pushing alpha's root twice. -/
def plan6 : MountPlan :=
  { overlay_ops :=
      [{ target := "/system", lowerdirs := [["mods", "alpha", "system"]] },
       { target := "/vendor", lowerdirs := [["mods", "alpha", "vendor"]] }]
    magic_module_paths := []
    overlay_module_ids := ["alpha"] }

/-- Result of `execute env6 plan6 configC4`. -/
def res6 : ExecutionResult :=
  { overlay_module_ids := [], magic_module_ids := ["alpha"] }

/-- A transport on which every command write succeeds. -/
def proto8 : ProtoEnv := { sendOk := fun _ => true }

/-- A module directory with one regular file, one directory, one
symlink below it, one whiteout (zero-rdev char device), one real char
device and one socket. -/
def md8 : ModuleDir :=
  { present := true
    isDirectory := true
    walk :=
      [WalkItem.entry ["app.txt"] EntryKind.file,
       WalkItem.entry ["lib"] EntryKind.dir,
       WalkItem.entry ["lib", "link.so"] EntryKind.symlink,
       WalkItem.entry ["gone.bin"] (EntryKind.charDev (some 0)),
       WalkItem.entry ["dev", "real"] (EntryKind.charDev (some 261)),
       WalkItem.entry ["sock"] EntryKind.other] }

/-- Target base used with `md8`. -/
def tb8 : FsPath := ["system"]

/-- Module directory path used with `md8`. -/
def mp8 : FsPath := ["data", "modules", "alpha", "system"]

/-- A module directory whose traversal hits a read error after one
good entry, with another entry behind the failure. -/
def md10 : ModuleDir :=
  { present := true
    isDirectory := true
    walk :=
      [WalkItem.entry ["a.txt"] EntryKind.file,
       WalkItem.readErr,
       WalkItem.entry ["b.txt"] EntryKind.file] }

theorem mem_dedupAdj {α : Type} [DecidableEq α] {x : α} :
    ∀ {l : List α}, x ∈ dedupAdj l ↔ x ∈ l
  | [] => Iff.rfl
  | [a] => Iff.rfl
  | a :: b :: rest => by
      by_cases hab : a = b
      · simp only [dedupAdj, if_pos hab]
        rw [mem_dedupAdj (l := b :: rest)]
        subst hab
        simp
      · simp only [dedupAdj, if_neg hab, List.mem_cons]
        rw [mem_dedupAdj (l := b :: rest)]
        simp

theorem charToNat_inj {a b : Char} (h : a.toNat = b.toNat) : a = b :=
  Char.ext (UInt32.ext h)

theorem stringData_inj {s t : String} (h : s.data = t.data) : s = t := by
  cases s
  cases t
  exact congrArg String.mk h

theorem encodeNatList_inj : ∀ {l₁ l₂ : List Nat},
    encodeNatList l₁ = encodeNatList l₂ → l₁ = l₂
  | [], [], _ => rfl
  | [], _ :: _, h => by cases h
  | _ :: _, [], h => by cases h
  | a :: as, b :: bs, h => by
      have h2 := Nat.succ_injective h
      obtain ⟨h3, h4⟩ := Nat.pair_eq_pair.mp h2
      rw [h3, encodeNatList_inj h4]

theorem encodeStr_inj : ∀ (s t : String), encodeStr s = encodeStr t → s = t := by
  intro s t h
  have h2 := encodeNatList_inj h
  exact stringData_inj (List.map_injective_iff.mpr (fun a b hab => charToNat_inj hab) h2)

theorem encodePath_inj : ∀ (p q : FsPath), encodePath p = encodePath q → p = q := by
  intro p q h
  have h2 := encodeNatList_inj h
  exact List.map_injective_iff.mpr (fun a b hab => encodeStr_inj a b hab) h2

theorem mem_sortDedup {α : Type} [DecidableEq α] {key : α → Nat} {x : α} {l : List α} :
    x ∈ sortDedup key l ↔ x ∈ l := by
  unfold sortDedup
  rw [mem_dedupAdj]
  exact (List.perm_insertionSort _ l).mem_iff

theorem dedupAdj_sorted_key {α : Type} [DecidableEq α] {key : α → Nat}
    (hinj : ∀ a b, key a = key b → a = b) :
    ∀ {l : List α}, l.Sorted (fun a b => key a ≤ key b) →
      (dedupAdj l).Sorted (fun a b => key a < key b)
  | [], _ => List.sorted_nil
  | [a], _ => List.sorted_singleton a
  | a :: b :: rest, h => by
      have htail : (b :: rest).Sorted (fun a b => key a ≤ key b) := h.of_cons
      by_cases hab : a = b
      · simpa [dedupAdj, if_pos hab] using dedupAdj_sorted_key hinj htail
      · have hrec := dedupAdj_sorted_key hinj htail
        simp only [dedupAdj, if_neg hab]
        refine List.sorted_cons.mpr ⟨?_, hrec⟩
        intro y hy
        have hyin : y ∈ b :: rest := mem_dedupAdj.mp hy
        have hby : key b ≤ key y := by
          rcases List.mem_cons.mp hyin with h1 | h1
          · exact le_of_eq (congrArg key h1.symm)
          · exact List.rel_of_sorted_cons htail y h1
        have halb : key a < key b :=
          lt_of_le_of_ne (List.rel_of_sorted_cons h b (List.mem_cons_self b rest))
            (fun he => hab (hinj a b he))
        exact lt_of_lt_of_le halb hby

theorem sortDedup_sorted_key {α : Type} [DecidableEq α] {key : α → Nat}
    (hinj : ∀ a b, key a = key b → a = b) (l : List α) :
    (sortDedup key l).Sorted (fun a b => key a < key b) := by
  haveI : IsTotal α (fun a b => key a ≤ key b) :=
    ⟨fun a b => Nat.le_total (key a) (key b)⟩
  haveI : IsTrans α (fun a b => key a ≤ key b) :=
    ⟨fun a b c h1 h2 => Nat.le_trans h1 h2⟩
  exact dedupAdj_sorted_key hinj (List.sorted_insertionSort _ l)

theorem sortDedup_nodup {α : Type} [DecidableEq α] {key : α → Nat}
    (hinj : ∀ a b, key a = key b → a = b) (l : List α) :
    (sortDedup key l).Nodup := by
  refine (sortDedup_sorted_key hinj l).imp ?_
  intro a b hlt he
  rw [he] at hlt
  exact absurd hlt (lt_irrefl _)

/-- Two lists with the same members canonicalize identically: the
output of `sortDedup` depends only on the set of elements. -/
theorem sortDedup_eq_of_mem_iff {α : Type} [DecidableEq α] {key : α → Nat}
    (hinj : ∀ a b, key a = key b → a = b) {l₁ l₂ : List α}
    (h : ∀ x, x ∈ l₁ ↔ x ∈ l₂) : sortDedup key l₁ = sortDedup key l₂ := by
  have hn₁ := sortDedup_nodup hinj l₁
  have hn₂ := sortDedup_nodup hinj l₂
  have hperm : List.Perm (sortDedup key l₁) (sortDedup key l₂) := by
    rw [List.perm_ext_iff_of_nodup hn₁ hn₂]
    intro a
    rw [mem_sortDedup, mem_sortDedup]
    exact h a
  haveI : IsAntisymm α (fun a b => key a < key b) :=
    ⟨fun a b hab hba => absurd hba (Nat.lt_asymm hab)⟩
  exact List.eq_of_perm_of_sorted hperm (sortDedup_sorted_key hinj l₁)
    (sortDedup_sorted_key hinj l₂)

theorem sortDedup_eq_nil_iff {α : Type} [DecidableEq α] {key : α → Nat} {l : List α} :
    sortDedup key l = [] ↔ l = [] := by
  constructor
  · intro h
    cases l with
    | nil => rfl
    | cons a t =>
        have : a ∈ sortDedup key (a :: t) := mem_sortDedup.mpr (List.mem_cons_self a t)
        rw [h] at this
        cases this
  · intro h
    subst h
    rfl

theorem countOcc_eq_zero_of_not_mem {α : Type} [DecidableEq α] {a : α} :
    ∀ {l : List α}, a ∉ l → countOcc a l = 0
  | [], _ => rfl
  | b :: t, h => by
      unfold countOcc
      rw [if_neg (fun he => h (by rw [← he]; exact List.mem_cons_self b t))]
      rw [countOcc_eq_zero_of_not_mem (fun hm => h (List.mem_cons_of_mem b hm))]

theorem countOcc_eq_one_of_nodup_mem {α : Type} [DecidableEq α] {l : List α} {a : α}
    (hn : l.Nodup) (ha : a ∈ l) : countOcc a l = 1 := by
  induction l with
  | nil => cases ha
  | cons b t ih =>
      unfold countOcc
      rcases List.mem_cons.mp ha with h | h
      · subst h
        rw [if_pos rfl]
        rw [countOcc_eq_zero_of_not_mem (List.nodup_cons.mp hn).1]
      · have hne : b ≠ a := fun he => (List.nodup_cons.mp hn).1 (by rw [he]; exact h)
        rw [if_neg hne, ih (List.nodup_cons.mp hn).2 h]

theorem extract_id_root {lp : FsPath} {i : String} (h : extract_id lp = some i) :
    ∃ r, extract_module_root lp = some r ∧ FsPath.fileName r = some i := by
  unfold extract_id extract_module_root at *
  cases hp : FsPath.parent lp with
  | none => rw [hp] at h; cases h
  | some r =>
      rw [hp] at h
      exact ⟨r, rfl, h⟩

theorem mem_pushLayer_left {acc : List FsPath × List String} {lp : FsPath}
    {x : FsPath} (hx : x ∈ acc.1) : x ∈ (pushLayer acc lp).1 := by
  unfold pushLayer
  cases extract_module_root lp with
  | none => exact hx
  | some root =>
      cases extract_id lp with
      | none => exact List.mem_append_left _ hx
      | some id => exact List.mem_append_left _ hx

theorem mem_pushLayer_right {acc : List FsPath × List String} {lp : FsPath}
    {y : String} (hy : y ∈ acc.2) : y ∈ (pushLayer acc lp).2 := by
  unfold pushLayer
  cases extract_module_root lp with
  | none => exact hy
  | some root =>
      cases extract_id lp with
      | none => exact hy
      | some id => exact List.mem_append_left _ hy

theorem mem_foldl_pushLayer_left {lps : List FsPath} :
    ∀ {acc : List FsPath × List String} {x : FsPath},
      x ∈ acc.1 → x ∈ (lps.foldl pushLayer acc).1 := by
  induction lps with
  | nil => intro acc x hx; exact hx
  | cons a t ih =>
      intro acc x hx
      exact ih (mem_pushLayer_left hx)

theorem mem_foldl_pushLayer_right {lps : List FsPath} :
    ∀ {acc : List FsPath × List String} {y : String},
      y ∈ acc.2 → y ∈ (lps.foldl pushLayer acc).2 := by
  induction lps with
  | nil => intro acc y hy; exact hy
  | cons a t ih =>
      intro acc y hy
      exact ih (mem_pushLayer_right hy)

theorem root_mem_foldl_pushLayer {lps : List FsPath} :
    ∀ {acc : List FsPath × List String} {lp : FsPath} {r : FsPath},
      lp ∈ lps → extract_module_root lp = some r →
      r ∈ (lps.foldl pushLayer acc).1 := by
  induction lps with
  | nil => intro _ _ _ h _; cases h
  | cons a t ih =>
      intro acc lp r hlp hr
      rcases List.mem_cons.mp hlp with h | h
      · subst h
        rw [List.foldl_cons]
        apply mem_foldl_pushLayer_left
        unfold pushLayer
        rw [hr]
        cases extract_id lp with
        | none => exact List.mem_append_right _ (List.mem_singleton_self r)
        | some id => exact List.mem_append_right _ (List.mem_singleton_self r)
      · exact ih h hr

theorem id_mem_foldl_pushLayer {lps : List FsPath} :
    ∀ {acc : List FsPath × List String} {lp : FsPath} {i : String},
      lp ∈ lps → extract_id lp = some i →
      i ∈ (lps.foldl pushLayer acc).2 := by
  induction lps with
  | nil => intro _ _ _ h _; cases h
  | cons a t ih =>
      intro acc lp i hlp hi
      rcases List.mem_cons.mp hlp with h | h
      · subst h
        rw [List.foldl_cons]
        apply mem_foldl_pushLayer_right
        obtain ⟨r, hr, _⟩ := extract_id_root hi
        unfold pushLayer
        rw [hr, hi]
        exact List.mem_append_right _ (List.mem_singleton_self i)
      · exact ih h hi

theorem processOps_mono_queue {env : ExecEnv} {ops : List OverlayOp} :
    ∀ {q : List FsPath} {f : List String} {x : FsPath},
      x ∈ q → x ∈ (processOps env ops q f).1 := by
  induction ops with
  | nil => intro q f x hx; exact hx
  | cons op rest ih =>
      intro q f x hx
      unfold processOps
      by_cases hok : env.overlayOk op.target (op.lowerdirs.map FsPath.display) = true
      · rw [if_pos hok]; exact ih hx
      · rw [if_neg hok]
        exact ih (mem_foldl_pushLayer_left hx)

theorem processOps_mono_ids {env : ExecEnv} {ops : List OverlayOp} :
    ∀ {q : List FsPath} {f : List String} {y : String},
      y ∈ f → y ∈ (processOps env ops q f).2 := by
  induction ops with
  | nil => intro q f y hy; exact hy
  | cons op rest ih =>
      intro q f y hy
      unfold processOps
      by_cases hok : env.overlayOk op.target (op.lowerdirs.map FsPath.display) = true
      · rw [if_pos hok]; exact ih hy
      · rw [if_neg hok]
        exact ih (mem_foldl_pushLayer_right hy)

theorem processOps_root_mem {env : ExecEnv} {ops : List OverlayOp} :
    ∀ {q : List FsPath} {f : List String} {op : OverlayOp} {lp : FsPath} {r : FsPath},
      op ∈ ops →
      env.overlayOk op.target (op.lowerdirs.map FsPath.display) = false →
      lp ∈ op.lowerdirs → extract_module_root lp = some r →
      r ∈ (processOps env ops q f).1 := by
  induction ops with
  | nil => intro _ _ _ _ _ h; cases h
  | cons op0 rest ih =>
      intro q f op lp r hop hfail hlp hr
      unfold processOps
      rcases List.mem_cons.mp hop with h | h
      · subst h
        rw [if_neg (by rw [hfail]; exact Bool.false_ne_true)]
        exact processOps_mono_queue (root_mem_foldl_pushLayer hlp hr)
      · by_cases hok : env.overlayOk op0.target (op0.lowerdirs.map FsPath.display) = true
        · rw [if_pos hok]; exact ih h hfail hlp hr
        · rw [if_neg hok]; exact ih h hfail hlp hr

theorem processOps_id_mem {env : ExecEnv} {ops : List OverlayOp} :
    ∀ {q : List FsPath} {f : List String} {op : OverlayOp} {lp : FsPath} {i : String},
      op ∈ ops →
      env.overlayOk op.target (op.lowerdirs.map FsPath.display) = false →
      lp ∈ op.lowerdirs → extract_id lp = some i →
      i ∈ (processOps env ops q f).2 := by
  induction ops with
  | nil => intro _ _ _ _ _ h; cases h
  | cons op0 rest ih =>
      intro q f op lp i hop hfail hlp hi
      unfold processOps
      rcases List.mem_cons.mp hop with h | h
      · subst h
        rw [if_neg (by rw [hfail]; exact Bool.false_ne_true)]
        exact processOps_mono_ids (id_mem_foldl_pushLayer hlp hi)
      · by_cases hok : env.overlayOk op0.target (op0.lowerdirs.map FsPath.display) = true
        · rw [if_pos hok]; exact ih h hfail hlp hi
        · rw [if_neg hok]; exact ih h hfail hlp hi

theorem processOps_congr {env env' : ExecEnv} (h : env.overlayOk = env'.overlayOk) :
    ∀ (ops : List OverlayOp) (q : List FsPath) (f : List String),
      processOps env ops q f = processOps env' ops q f := by
  intro ops
  induction ops with
  | nil => intro q f; rfl
  | cons op rest ih =>
      intro q f
      unfold processOps
      rw [h]
      by_cases hok : env'.overlayOk op.target (op.lowerdirs.map FsPath.display) = true
      · rw [if_pos hok, if_pos hok]; exact ih q f
      · rw [if_neg hok, if_neg hok]; exact ih _ _

theorem processOps_all_ok {env : ExecEnv} {ops : List OverlayOp} :
    ∀ {q : List FsPath} {f : List String},
      (∀ op ∈ ops, env.overlayOk op.target (op.lowerdirs.map FsPath.display) = true) →
      processOps env ops q f = (q, f) := by
  induction ops with
  | nil => intro q f _; rfl
  | cons op rest ih =>
      intro q f hall
      unfold processOps
      rw [if_pos (hall op (List.mem_cons_self op rest))]
      exact ih fun o ho => hall o (List.mem_cons_of_mem op ho)

theorem execute_ok_cases {env : ExecEnv} {plan : MountPlan} {config : Config}
    {res : ExecutionResult} {cl : List FsPath}
    (h : execute env plan config = (Except.ok res, cl)) :
    (magicBatch env plan = [] ∧
      res = ⟨sortDedup encodeStr (finalOverlayIdsOf env plan), []⟩ ∧ cl = []) ∨
    (magicBatch env plan ≠ [] ∧ ∃ t,
      resolveTempDir env config = Except.ok t ∧ env.ensureOk t = true ∧
      res = ⟨sortDedup encodeStr (finalOverlayIdsOf env plan),
             sortDedup encodeStr (if env.magicOk then magicIdsOf env plan else [])⟩ ∧
      cl = [t]) := by
  unfold execute at h
  by_cases hq : (magicBatch env plan).isEmpty = true
  · rw [if_pos hq] at h
    injection h with h1 h2
    injection h1 with h1
    exact Or.inl ⟨List.isEmpty_iff.mp hq, h1.symm, h2.symm⟩
  · rw [if_neg hq] at h
    have hne : magicBatch env plan ≠ [] := fun hnil => hq (List.isEmpty_iff.mpr hnil)
    cases hres : resolveTempDir env config with
    | error e =>
        rw [hres] at h
        injection h with h1 _
        exact Except.noConfusion h1
    | ok t =>
        rw [hres] at h
        dsimp only at h
        by_cases he : env.ensureOk t = true
        · rw [if_pos he] at h
          injection h with h1 h2
          injection h1 with h1
          exact Or.inr ⟨hne, t, rfl, he, h1.symm, h2.symm⟩
        · rw [if_neg he] at h
          injection h with h1 _
          exact Except.noConfusion h1

theorem execute_isOk_iff (env : ExecEnv) (plan : MountPlan) (config : Config) :
    isOkE (execute env plan config).1 = true ↔
      (magicBatch env plan = [] ∨
        ∃ t, resolveTempDir env config = Except.ok t ∧ env.ensureOk t = true) := by
  unfold execute
  by_cases hq : (magicBatch env plan).isEmpty = true
  · rw [if_pos hq]
    exact ⟨fun _ => Or.inl (List.isEmpty_iff.mp hq), fun _ => rfl⟩
  · rw [if_neg hq]
    have hne : magicBatch env plan ≠ [] := fun hnil => hq (List.isEmpty_iff.mpr hnil)
    cases hres : resolveTempDir env config with
    | error e =>
        constructor
        · intro hfalse; exact absurd hfalse (by simp [isOkE])
        · rintro (hnil | ⟨t, ht, -⟩)
          · exact absurd hnil hne
          · exact Except.noConfusion ht
    | ok t =>
        dsimp only
        by_cases he : env.ensureOk t = true
        · rw [if_pos he]
          exact ⟨fun _ => Or.inr ⟨t, rfl, he⟩, fun _ => rfl⟩
        · rw [if_neg he]
          constructor
          · intro hfalse; exact absurd hfalse (by simp [isOkE])
          · rintro (hnil | ⟨t', ht', he'⟩)
            · exact absurd hnil hne
            · injection ht' with ht'
              rw [← ht'] at he'
              exact absurd he' he

/-- Claim C1: `execute` returns a hard error only on unrecoverable local
failures of the staging temp directory (resolution via
`select_temp_dir`, or creation/inspection via `ensure_temp_dir`): the
call succeeds exactly when the replication batch is empty or a staging
directory is resolved and ensured, independently of any union-mount
outcome; and a failed union-mount attempt is absorbed by queueing the
operation's module roots for fallback while every remaining operation
is still processed. -/
theorem claim1_hard_error_only_local (env : ExecEnv) (plan : MountPlan) (config : Config) :
    (isOkE (execute env plan config).1 = true ↔
      (magicBatch env plan = [] ∨
        ∃ t, resolveTempDir env config = Except.ok t ∧ env.ensureOk t = true)) ∧
    (∀ op ∈ plan.overlay_ops,
      env.overlayOk op.target (op.lowerdirs.map FsPath.display) = false →
      ∀ lp ∈ op.lowerdirs, ∀ r, extract_module_root lp = some r →
        r ∈ (opsResult env plan).1) :=
  ⟨execute_isOk_iff env plan config,
   fun _ hop hfail lp hlp _ hr => processOps_root_mem hop hfail hlp hr⟩

theorem claim1_witness :
    (isOkE (execute envA planA configA).1 = true ↔
      (magicBatch envA planA = [] ∨
        ∃ t, resolveTempDir envA configA = Except.ok t ∧ envA.ensureOk t = true)) ∧
    (["data", "modules", "alpha"] : FsPath) ∈ (opsResult envA planA).1 :=
  ⟨(claim1_hard_error_only_local envA planA configA).1,
   (claim1_hard_error_only_local envA planA configA).2 opFail (by decide) (by decide)
     ["data", "modules", "alpha", "system"] (by decide)
     ["data", "modules", "alpha"] (by decide)⟩

/-- Claim C9: for every module root `m` and non-empty partition name
`p`, `extract_module_root(m.join(p))` returns `m` and
`extract_id(m.join(p))` returns the file name of `m`: ID derivation
round-trips through the `<module_root>/<partition_name>` layout. -/
theorem claim9_id_roundtrip (m : FsPath) (p : String) (hp : p ≠ "") :
    extract_module_root (FsPath.join m p) = some m ∧
    extract_id (FsPath.join m p) = FsPath.fileName m := by
  have hjoin : FsPath.join m p = m ++ [p] := by
    unfold FsPath.join
    rw [if_neg hp]
  have hparent : FsPath.parent (m ++ [p]) = some m := by
    cases m with
    | nil => rfl
    | cons a t =>
        show FsPath.parent ((a :: t) ++ [p]) = some (a :: t)
        rw [List.cons_append]
        unfold FsPath.parent
        rw [← List.cons_append, List.dropLast_concat]
        rfl
  constructor
  · rw [hjoin]
    exact hparent
  · rw [hjoin]
    unfold extract_id
    rw [hparent]
    rfl

theorem opsResult_congr {env env' : ExecEnv} (h : env.overlayOk = env'.overlayOk)
    (plan : MountPlan) : opsResult env plan = opsResult env' plan := by
  unfold opsResult
  rw [processOps_congr h]

theorem magicBatch_congr {env env' : ExecEnv} (h : env.overlayOk = env'.overlayOk)
    (plan : MountPlan) : magicBatch env plan = magicBatch env' plan := by
  unfold magicBatch
  rw [opsResult_congr h]

theorem finalOverlayIdsOf_congr {env env' : ExecEnv} (h : env.overlayOk = env'.overlayOk)
    (plan : MountPlan) : finalOverlayIdsOf env plan = finalOverlayIdsOf env' plan := by
  unfold finalOverlayIdsOf
  rw [opsResult_congr h]

theorem not_mem_finalOverlayIdsOf {env : ExecEnv} {plan : MountPlan} {id : String}
    (hif : id ∈ (opsResult env plan).2) : id ∉ finalOverlayIdsOf env plan := by
  unfold finalOverlayIdsOf
  have hfne : ((opsResult env plan).2).isEmpty = false := by
    cases hfe : (opsResult env plan).2 with
    | nil => rw [hfe] at hif; cases hif
    | cons a l => rfl
  rw [hfne]
  simp only [Bool.false_eq_true, if_false]
  intro hmem
  have hpred := (List.mem_filter.mp hmem).2
  have hcont : (opsResult env plan).2.contains id = true := List.elem_iff.mpr hif
  rw [hcont] at hpred
  cases hpred

/-- Claim C2: if an overlay operation's union mount fails and the
replication batch succeeds, every module contributing a layer path to
that operation appears in the returned replication ID set and is absent
from the returned overlay ID set (whatever other operations did). -/
theorem claim2_failed_op_goes_to_replication
    {env : ExecEnv} {plan : MountPlan} {config : Config} {op : OverlayOp}
    {lp : FsPath} {id : String} {res : ExecutionResult} {cl : List FsPath}
    (hop : op ∈ plan.overlay_ops)
    (hfail : env.overlayOk op.target (op.lowerdirs.map FsPath.display) = false)
    (hlp : lp ∈ op.lowerdirs)
    (hid : extract_id lp = some id)
    (hmagic : env.magicOk = true)
    (hok : execute env plan config = (Except.ok res, cl)) :
    id ∈ res.magic_module_ids ∧ id ∉ res.overlay_module_ids := by
  obtain ⟨r, hr, hfn⟩ := extract_id_root hid
  have hrq : r ∈ (opsResult env plan).1 := processOps_root_mem hop hfail hlp hr
  have hrb : r ∈ magicBatch env plan := mem_sortDedup.mpr hrq
  have hif : id ∈ (opsResult env plan).2 := processOps_id_mem hop hfail hlp hid
  rcases execute_ok_cases hok with ⟨hq, -, -⟩ | ⟨-, t, -, -, hres, -⟩
  · rw [hq] at hrb
    cases hrb
  · constructor
    · rw [hres]
      show id ∈ sortDedup encodeStr (if env.magicOk then magicIdsOf env plan else [])
      rw [hmagic, if_pos rfl]
      exact mem_sortDedup.mpr (List.mem_filterMap.mpr ⟨r, hrb, hfn⟩)
    · rw [hres]
      show id ∉ sortDedup encodeStr (finalOverlayIdsOf env plan)
      intro hin
      exact not_mem_finalOverlayIdsOf hif (mem_sortDedup.mp hin)

theorem claim2_witness :
    "alpha" ∈ resA.magic_module_ids ∧ "alpha" ∉ resA.overlay_module_ids :=
  @claim2_failed_op_goes_to_replication envA planA configA opFail
    ["data", "modules", "alpha", "system"] "alpha" resA [["tmp", "hybrid"]]
    (by decide) (by decide) (by decide) (by decide) rfl (by decide)

/-- Claim C3: with a non-empty replication batch, failure of the
replication adapter makes the returned replication ID set empty
(fail-closed), while the returned overlay ID set is the same as in the
run that differs only in the adapter succeeding. -/
theorem claim3_fail_closed
    {env : ExecEnv} {plan : MountPlan} {config : Config}
    {res res' : ExecutionResult} {cl cl' : List FsPath}
    (hne : magicBatch env plan ≠ [])
    (hfail : env.magicOk = false)
    (h1 : execute env plan config = (Except.ok res, cl))
    (h2 : execute { env with magicOk := true } plan config = (Except.ok res', cl')) :
    res.magic_module_ids = [] ∧ res.overlay_module_ids = res'.overlay_module_ids := by
  rcases execute_ok_cases h1 with ⟨hq, -, -⟩ | ⟨-, t, -, -, hres, -⟩
  · exact absurd hq hne
  · have hne' : magicBatch { env with magicOk := true } plan ≠ [] := by
      rw [← @magicBatch_congr env { env with magicOk := true } rfl plan]
      exact hne
    rcases execute_ok_cases h2 with ⟨hq', -, -⟩ | ⟨-, t', -, -, hres', -⟩
    · exact absurd hq' hne'
    · constructor
      · rw [hres]
        show sortDedup encodeStr (if env.magicOk then magicIdsOf env plan else []) = []
        rw [hfail]
        rfl
      · rw [hres, hres']
        show sortDedup encodeStr (finalOverlayIdsOf env plan) =
          sortDedup encodeStr (finalOverlayIdsOf { env with magicOk := true } plan)
        rw [@finalOverlayIdsOf_congr env { env with magicOk := true } rfl plan]

theorem claim3_witness :
    resB.magic_module_ids = [] ∧ resB.overlay_module_ids = resA.overlay_module_ids :=
  @claim3_fail_closed envB planA configA resB resA
    [["tmp", "hybrid"]] [["tmp", "hybrid"]]
    (by decide) rfl (by decide) (by decide)

/-- Claim C4 (amended): whenever the fallback queue is non-empty, a
staging temp directory is resolved and ensuring it succeeds, the
cleanup of that directory runs before `execute` returns, on the success
and replication-adapter-failure paths alike; but when
`ensure_temp_dir` fails, `execute` returns that error without
performing the cleanup. -/
theorem claim4_cleanup_after_ensure
    {env : ExecEnv} {plan : MountPlan} {config : Config} {t : FsPath}
    (hne : magicBatch env plan ≠ [])
    (hres : resolveTempDir env config = Except.ok t)
    (hens : env.ensureOk t = true) :
    (execute env plan config).2 = [t] ∧ isOkE (execute env plan config).1 = true := by
  unfold execute
  rw [if_neg (fun hq => hne (List.isEmpty_iff.mp hq)), hres]
  dsimp only
  rw [if_pos hens]
  exact ⟨rfl, rfl⟩

theorem claim4_witness :
    (execute envA planA configA).2 = [["tmp", "hybrid"]] ∧
    isOkE (execute envA planA configA).1 = true :=
  @claim4_cleanup_after_ensure envA planA configA ["tmp", "hybrid"]
    (by decide) rfl rfl

theorem claim4_counterexample :
    magicBatch envC4 planC4 ≠ [] ∧
    resolveTempDir envC4 configC4 = Except.ok ["tmp"] ∧
    execute envC4 planC4 configC4 = (Except.error ExecErr.ensureFail, []) :=
  ⟨by decide, rfl, by decide⟩

/-- Claim C5 (amended): when every union mount succeeds and the
replication batch (if any) succeeds, the returned overlay ID set is the
canonicalized intended overlay ID set and the returned replication ID
set is the canonicalized set of IDs derived from the plan's magic
module paths — for every such plan; and provided additionally the
plan's intended overlay IDs are disjoint from the magic-module-derived
IDs, no ID appears in both returned sets. -/
theorem claim5_all_success_result
    {env : ExecEnv} {plan : MountPlan} {config : Config}
    {res : ExecutionResult} {cl : List FsPath}
    (hall : ∀ op ∈ plan.overlay_ops,
      env.overlayOk op.target (op.lowerdirs.map FsPath.display) = true)
    (hmagic : env.magicOk = true)
    (hok : execute env plan config = (Except.ok res, cl)) :
    res.overlay_module_ids = sortDedup encodeStr plan.overlay_module_ids ∧
    res.magic_module_ids = sortDedup encodeStr (plan.magic_module_paths.filterMap FsPath.fileName) ∧
    ((∀ id ∈ plan.overlay_module_ids,
        id ∉ plan.magic_module_paths.filterMap FsPath.fileName) →
      ∀ id ∈ res.overlay_module_ids, id ∉ res.magic_module_ids) := by
  have hops : opsResult env plan = (plan.magic_module_paths, []) := processOps_all_ok hall
  have hfo : finalOverlayIdsOf env plan = plan.overlay_module_ids := by
    unfold finalOverlayIdsOf
    rw [hops]
    rfl
  have hbatch : magicBatch env plan = sortDedup encodePath plan.magic_module_paths := by
    unfold magicBatch
    rw [hops]
  have hmio : ∀ id, id ∈ magicIdsOf env plan ↔
      id ∈ plan.magic_module_paths.filterMap FsPath.fileName := by
    intro id
    unfold magicIdsOf
    rw [hbatch]
    simp only [List.mem_filterMap]
    constructor
    · rintro ⟨r, hr, hfn⟩
      exact ⟨r, mem_sortDedup.mp hr, hfn⟩
    · rintro ⟨r, hr, hfn⟩
      exact ⟨r, mem_sortDedup.mpr hr, hfn⟩
  rcases execute_ok_cases hok with ⟨hq, hres, -⟩ | ⟨-, t, -, -, hres, -⟩
  · have hmm : plan.magic_module_paths = [] := by
      rw [hbatch] at hq
      exact sortDedup_eq_nil_iff.mp hq
    refine ⟨?_, ?_, ?_⟩
    · rw [hres, hfo]
    · rw [hres, hmm]
      rfl
    · intro _ id _ hin
      rw [hres] at hin
      cases hin
  · refine ⟨?_, ?_, ?_⟩
    · rw [hres, hfo]
    · rw [hres]
      show sortDedup encodeStr (if env.magicOk then magicIdsOf env plan else []) =
        sortDedup encodeStr (plan.magic_module_paths.filterMap FsPath.fileName)
      rw [hmagic, if_pos rfl]
      exact sortDedup_eq_of_mem_iff encodeStr_inj hmio
    · intro hdisj id hid hidm
      rw [hres] at hid hidm
      have h1 : id ∈ plan.overlay_module_ids := by
        rw [← hfo]
        exact mem_sortDedup.mp hid
      have h2 : id ∈ magicIdsOf env plan := by
        have : id ∈ sortDedup encodeStr (if env.magicOk then magicIdsOf env plan else []) := hidm
        rw [hmagic, if_pos rfl] at this
        exact mem_sortDedup.mp this
      exact hdisj id h1 ((hmio id).mp h2)

theorem claim5_witness :
    resD.overlay_module_ids = sortDedup encodeStr planD.overlay_module_ids ∧
    resD.magic_module_ids = sortDedup encodeStr (planD.magic_module_paths.filterMap FsPath.fileName) ∧
    "alpha" ∉ resD.magic_module_ids :=
  ⟨(@claim5_all_success_result envC5 planD configC4 resD [["tmp"]]
      (by decide) rfl (by decide)).1,
   (@claim5_all_success_result envC5 planD configC4 resD [["tmp"]]
      (by decide) rfl (by decide)).2.1,
   (@claim5_all_success_result envC5 planD configC4 resD [["tmp"]]
      (by decide) rfl (by decide)).2.2 (by decide) "alpha" (by decide)⟩

theorem claim5_counterexample :
    planC5.overlay_ops = [] ∧ envC5.magicOk = true ∧
    execute envC5 planC5 configC4 = (Except.ok resC5, [["tmp"]]) ∧
    "alpha" ∈ resC5.overlay_module_ids ∧ "alpha" ∈ resC5.magic_module_ids :=
  ⟨rfl, rfl, by decide, by decide, by decide⟩

/-- Claim C6: the fallback queue is deduplicated before the replication
adapter is invoked — a module root pushed any number of times occurs
exactly once in the batch, and its ID contributes exactly one entry to
the final replication ID set when the batch succeeds. -/
theorem claim6_dedup_before_replication
    {env : ExecEnv} {plan : MountPlan} {config : Config}
    {res : ExecutionResult} {cl : List FsPath} {r : FsPath} {id : String}
    (hr : r ∈ (opsResult env plan).1)
    (hfn : FsPath.fileName r = some id)
    (hmagic : env.magicOk = true)
    (hok : execute env plan config = (Except.ok res, cl)) :
    countOcc r (magicBatch env plan) = 1 ∧ countOcc id res.magic_module_ids = 1 := by
  have hrb : r ∈ magicBatch env plan := mem_sortDedup.mpr hr
  have hc1 : countOcc r (magicBatch env plan) = 1 :=
    countOcc_eq_one_of_nodup_mem (sortDedup_nodup encodePath_inj _) hrb
  rcases execute_ok_cases hok with ⟨hq, -, -⟩ | ⟨-, t, -, -, hres, -⟩
  · rw [hq] at hrb
    cases hrb
  · have hidm : id ∈ magicIdsOf env plan := List.mem_filterMap.mpr ⟨r, hrb, hfn⟩
    refine ⟨hc1, ?_⟩
    rw [hres]
    show countOcc id (sortDedup encodeStr (if env.magicOk then magicIdsOf env plan else [])) = 1
    rw [hmagic, if_pos rfl]
    exact countOcc_eq_one_of_nodup_mem (sortDedup_nodup encodeStr_inj _)
      (mem_sortDedup.mpr hidm)

theorem claim6_witness :
    countOcc ["mods", "alpha"] (magicBatch env6 plan6) = 1 ∧
    countOcc "alpha" res6.magic_module_ids = 1 :=
  @claim6_dedup_before_replication env6 plan6 configC4 res6 [["tmp"]]
    ["mods", "alpha"] "alpha" (by decide) rfl rfl (by decide)

theorem check_status_absent {st : CtlFile} (h : st.ctlExists = false) :
    check_status st = HymoFsStatus.NotPresent := by
  unfold check_status
  rw [h]
  rfl

theorem check_status_noversion {st : CtlFile} (h1 : st.ctlExists = true)
    (h2 : get_protocol_version st = none) :
    check_status st = HymoFsStatus.NotPresent := by
  unfold check_status
  rw [h1, h2]
  rfl

theorem check_status_lt {st : CtlFile} {v : Int} (h1 : st.ctlExists = true)
    (h2 : get_protocol_version st = some v) (h3 : v < EXPECTED_PROTOCOL_VERSION) :
    check_status st = HymoFsStatus.KernelTooOld := by
  unfold check_status
  rw [h1, h2]
  dsimp only
  rw [if_pos (ne_of_lt h3), if_pos h3]
  rfl

theorem check_status_gt {st : CtlFile} {v : Int} (h1 : st.ctlExists = true)
    (h2 : get_protocol_version st = some v) (h3 : EXPECTED_PROTOCOL_VERSION < v) :
    check_status st = HymoFsStatus.ModuleTooOld := by
  unfold check_status
  rw [h1, h2]
  dsimp only
  rw [if_pos (ne_of_gt h3), if_neg (not_lt_of_gt h3)]
  rfl

theorem check_status_eq {st : CtlFile} {v : Int} (h1 : st.ctlExists = true)
    (h2 : get_protocol_version st = some v) (h3 : v = EXPECTED_PROTOCOL_VERSION) :
    check_status st = HymoFsStatus.Available := by
  unfold check_status
  rw [h1, h2]
  dsimp only
  rw [if_neg (fun hne : v ≠ EXPECTED_PROTOCOL_VERSION => hne h3)]
  rfl

/-- Claim C7: `check_status` is a total function into the four states:
`NotPresent` exactly when the control path is absent or no protocol
version can be parsed from the first line; otherwise `KernelTooOld`
exactly when the parsed version is below the expected constant,
`ModuleTooOld` exactly when above, and `Available` exactly on
equality. -/
theorem claim7_check_status_cases (st : CtlFile) :
    (check_status st = HymoFsStatus.NotPresent ↔
      (st.ctlExists = false ∨ get_protocol_version st = none)) ∧
    (check_status st = HymoFsStatus.KernelTooOld ↔
      (st.ctlExists = true ∧
        ∃ v, get_protocol_version st = some v ∧ v < EXPECTED_PROTOCOL_VERSION)) ∧
    (check_status st = HymoFsStatus.ModuleTooOld ↔
      (st.ctlExists = true ∧
        ∃ v, get_protocol_version st = some v ∧ EXPECTED_PROTOCOL_VERSION < v)) ∧
    (check_status st = HymoFsStatus.Available ↔
      (st.ctlExists = true ∧
        get_protocol_version st = some EXPECTED_PROTOCOL_VERSION)) := by
  cases hex : st.ctlExists with
  | false =>
      rw [check_status_absent hex]
      refine ⟨⟨fun _ => Or.inl rfl, fun _ => rfl⟩, ?_, ?_, ?_⟩
      · refine ⟨fun h => HymoFsStatus.noConfusion h, ?_⟩
        rintro ⟨hfalse, -⟩
        exact Bool.noConfusion hfalse
      · refine ⟨fun h => HymoFsStatus.noConfusion h, ?_⟩
        rintro ⟨hfalse, -⟩
        exact Bool.noConfusion hfalse
      · refine ⟨fun h => HymoFsStatus.noConfusion h, ?_⟩
        rintro ⟨hfalse, -⟩
        exact Bool.noConfusion hfalse
  | true =>
      cases hv : get_protocol_version st with
      | none =>
          rw [check_status_noversion hex hv]
          refine ⟨⟨fun _ => Or.inr rfl, fun _ => rfl⟩, ?_, ?_, ?_⟩
          · refine ⟨fun h => HymoFsStatus.noConfusion h, ?_⟩
            rintro ⟨-, w, hsome, -⟩
            exact Option.noConfusion hsome
          · refine ⟨fun h => HymoFsStatus.noConfusion h, ?_⟩
            rintro ⟨-, w, hsome, -⟩
            exact Option.noConfusion hsome
          · refine ⟨fun h => HymoFsStatus.noConfusion h, ?_⟩
            rintro ⟨-, hsome⟩
            exact Option.noConfusion hsome
      | some v =>
          rcases lt_trichotomy v EXPECTED_PROTOCOL_VERSION with hlt | heqv | hgt
          · rw [check_status_lt hex hv hlt]
            refine ⟨?_, ?_, ?_, ?_⟩
            · refine ⟨fun h => HymoFsStatus.noConfusion h, ?_⟩
              rintro (hfalse | hnone)
              · exact Bool.noConfusion hfalse
              · exact Option.noConfusion hnone
            · exact ⟨fun _ => ⟨rfl, v, rfl, hlt⟩, fun _ => rfl⟩
            · refine ⟨fun h => HymoFsStatus.noConfusion h, ?_⟩
              rintro ⟨-, w, hsome, hgt'⟩
              injection hsome with hw
              rw [← hw] at hgt'
              exact absurd hgt' (lt_asymm hlt)
            · refine ⟨fun h => HymoFsStatus.noConfusion h, ?_⟩
              rintro ⟨-, hsome⟩
              injection hsome with hw
              rw [hw] at hlt
              exact absurd hlt (lt_irrefl _)
          · rw [check_status_eq hex hv heqv]
            refine ⟨?_, ?_, ?_, ?_⟩
            · refine ⟨fun h => HymoFsStatus.noConfusion h, ?_⟩
              rintro (hfalse | hnone)
              · exact Bool.noConfusion hfalse
              · exact Option.noConfusion hnone
            · refine ⟨fun h => HymoFsStatus.noConfusion h, ?_⟩
              rintro ⟨-, w, hsome, hlt'⟩
              injection hsome with hw
              rw [← hw, heqv] at hlt'
              exact absurd hlt' (lt_irrefl _)
            · refine ⟨fun h => HymoFsStatus.noConfusion h, ?_⟩
              rintro ⟨-, w, hsome, hgt'⟩
              injection hsome with hw
              rw [← hw, heqv] at hgt'
              exact absurd hgt' (lt_irrefl _)
            · exact ⟨fun _ => ⟨rfl, by rw [← heqv]⟩, fun _ => rfl⟩
          · rw [check_status_gt hex hv hgt]
            refine ⟨?_, ?_, ?_, ?_⟩
            · refine ⟨fun h => HymoFsStatus.noConfusion h, ?_⟩
              rintro (hfalse | hnone)
              · exact Bool.noConfusion hfalse
              · exact Option.noConfusion hnone
            · refine ⟨fun h => HymoFsStatus.noConfusion h, ?_⟩
              rintro ⟨-, w, hsome, hlt'⟩
              injection hsome with hw
              rw [← hw] at hlt'
              exact absurd hlt' (lt_asymm hgt)
            · exact ⟨fun _ => ⟨rfl, v, rfl, hgt⟩, fun _ => rfl⟩
            · refine ⟨fun h => HymoFsStatus.noConfusion h, ?_⟩
              rintro ⟨-, hsome⟩
              injection hsome with hw
              rw [hw] at hgt
              exact absurd hgt (lt_irrefl _)

theorem claim9_witness :
    extract_module_root (FsPath.join ["data", "modules", "alpha"] "system") =
      some ["data", "modules", "alpha"] ∧
    extract_id (FsPath.join ["data", "modules", "alpha"] "system") =
      FsPath.fileName ["data", "modules", "alpha"] :=
  claim9_id_roundtrip ["data", "modules", "alpha"] "system" (by decide)

theorem injectLoop_all_ok {env : ProtoEnv} {tb mp : FsPath} :
    ∀ {items : List WalkItem} {acc : List Cmd},
      (∀ it ∈ items, injectItemOk env tb mp it = true) →
      injectLoop env tb mp items acc = (acc ++ items.flatMap (emitFor tb mp), none) := by
  intro items
  induction items with
  | nil =>
      intro acc _
      simp [injectLoop]
  | cons it rest ih =>
      intro acc hall
      have hit := hall it (List.mem_cons_self it rest)
      have hrest : ∀ x ∈ rest, injectItemOk env tb mp x = true :=
        fun x hx => hall x (List.mem_cons_of_mem it hx)
      cases it with
      | readErr => exact Bool.noConfusion hit
      | entry rel kind =>
          cases kind with
          | file =>
              have hsend : env.sendOk (add_rule (tb ++ rel) (mp ++ rel) (some 8)) = true := hit
              simp only [injectLoop, emitFor]
              rw [if_pos hsend, ih hrest]
              simp [List.flatMap_cons, emitFor, List.append_assoc]
          | symlink =>
              have hsend : env.sendOk (add_rule (tb ++ rel) (mp ++ rel) (some 10)) = true := hit
              simp only [injectLoop, emitFor]
              rw [if_pos hsend, ih hrest]
              simp [List.flatMap_cons, emitFor, List.append_assoc]
          | charDev rdevInfo =>
              cases rdevInfo with
              | none => exact Bool.noConfusion hit
              | some rdev =>
                  by_cases hz : rdev = 0
                  · have hsend : env.sendOk (hide_path (tb ++ rel)) = true := by
                      have h2 := hit
                      unfold injectItemOk at h2
                      dsimp only at h2
                      rw [if_pos hz] at h2
                      exact h2
                    simp only [injectLoop]
                    rw [if_pos hz, if_pos hsend, ih hrest]
                    simp [List.flatMap_cons, emitFor, if_pos hz, List.append_assoc]
                  · simp only [injectLoop]
                    rw [if_neg hz, ih hrest]
                    simp [List.flatMap_cons, emitFor, if_neg hz]
          | dir =>
              have hsend : env.sendOk (inject_dir (tb ++ rel)) = true := hit
              simp only [injectLoop]
              rw [if_pos hsend, ih hrest]
              simp [List.flatMap_cons, emitFor, List.append_assoc]
          | other =>
              simp only [injectLoop]
              rw [ih hrest]
              simp [List.flatMap_cons, emitFor]

/-- Claim C8: projecting an existing module directory under a target
base, with every command write succeeding and every traversal entry
readable, emits first the `inject` for the target base and then, in
traversal order with each entry contributing exactly once at its
re-rooted target path: an `add` with tag 8 per regular file, an `add`
with tag 10 per symbolic link, a `hide` per zero-rdev character device,
nothing for a non-zero character device, and an `inject` per
directory. -/
theorem claim8_projection_commands
    {env : ProtoEnv} {tb mp : FsPath} {md : ModuleDir}
    (hp : md.present = true) (hd : md.isDirectory = true)
    (hsend : ∀ c, env.sendOk c = true)
    (hitems : ∀ it ∈ md.walk, injectItemOk env tb mp it = true) :
    inject_directory env tb mp md =
      (inject_dir tb :: md.walk.flatMap (emitFor tb mp), none) := by
  unfold inject_directory
  rw [hp, hd]
  simp only [Bool.not_true, Bool.false_or, Bool.false_eq_true, if_false]
  rw [if_pos (hsend (inject_dir tb)), injectLoop_all_ok hitems]
  rfl

theorem claim8_witness :
    inject_directory proto8 tb8 mp8 md8 =
      (inject_dir tb8 :: md8.walk.flatMap (emitFor tb8 mp8), none) :=
  claim8_projection_commands rfl rfl (fun _ => rfl) (by decide)

theorem injectLoop_bad_head {env : ProtoEnv} {tb mp : FsPath}
    {bad : WalkItem} {rest : List WalkItem} {acc : List Cmd}
    (hbad : injectItemOk env tb mp bad = false) :
    (injectLoop env tb mp (bad :: rest) acc).1 = acc ∧
    (injectLoop env tb mp (bad :: rest) acc).2.isSome = true := by
  cases bad with
  | readErr => exact ⟨rfl, rfl⟩
  | entry rel kind =>
      cases kind with
      | file =>
          have hsend : env.sendOk (add_rule (tb ++ rel) (mp ++ rel) (some 8)) = false := hbad
          simp only [injectLoop]
          rw [if_neg (by rw [hsend]; exact Bool.false_ne_true)]
          exact ⟨rfl, rfl⟩
      | symlink =>
          have hsend : env.sendOk (add_rule (tb ++ rel) (mp ++ rel) (some 10)) = false := hbad
          simp only [injectLoop]
          rw [if_neg (by rw [hsend]; exact Bool.false_ne_true)]
          exact ⟨rfl, rfl⟩
      | charDev rdevInfo =>
          cases rdevInfo with
          | none => exact ⟨rfl, rfl⟩
          | some rdev =>
              by_cases hz : rdev = 0
              · have hsend : env.sendOk (hide_path (tb ++ rel)) = false := by
                  have h2 := hbad
                  unfold injectItemOk at h2
                  dsimp only at h2
                  rw [if_pos hz] at h2
                  exact h2
                simp only [injectLoop]
                rw [if_pos hz, if_neg (by rw [hsend]; exact Bool.false_ne_true)]
                exact ⟨rfl, rfl⟩
              · exfalso
                have h2 := hbad
                unfold injectItemOk at h2
                dsimp only at h2
                rw [if_neg hz] at h2
                exact Bool.noConfusion h2
      | dir =>
          have hsend : env.sendOk (inject_dir (tb ++ rel)) = false := hbad
          simp only [injectLoop]
          rw [if_neg (by rw [hsend]; exact Bool.false_ne_true)]
          exact ⟨rfl, rfl⟩
      | other => exact Bool.noConfusion hbad

theorem injectLoop_ok_skip {env : ProtoEnv} {tb mp : FsPath} :
    ∀ {pre suf : List WalkItem} {acc : List Cmd},
      (∀ it ∈ pre, injectItemOk env tb mp it = true) →
      injectLoop env tb mp (pre ++ suf) acc =
        injectLoop env tb mp suf (acc ++ pre.flatMap (emitFor tb mp)) := by
  intro pre
  induction pre with
  | nil =>
      intro suf acc _
      simp
  | cons it rest ih =>
      intro suf acc hall
      have hit := hall it (List.mem_cons_self it rest)
      have hrest : ∀ x ∈ rest, injectItemOk env tb mp x = true :=
        fun x hx => hall x (List.mem_cons_of_mem it hx)
      cases it with
      | readErr => exact Bool.noConfusion hit
      | entry rel kind =>
          cases kind with
          | file =>
              have hsend : env.sendOk (add_rule (tb ++ rel) (mp ++ rel) (some 8)) = true := hit
              simp only [List.cons_append, injectLoop, List.append_eq]
              rw [if_pos hsend, ih hrest]
              simp [List.flatMap_cons, emitFor, List.append_assoc]
          | symlink =>
              have hsend : env.sendOk (add_rule (tb ++ rel) (mp ++ rel) (some 10)) = true := hit
              simp only [List.cons_append, injectLoop, List.append_eq]
              rw [if_pos hsend, ih hrest]
              simp [List.flatMap_cons, emitFor, List.append_assoc]
          | charDev rdevInfo =>
              cases rdevInfo with
              | none => exact Bool.noConfusion hit
              | some rdev =>
                  by_cases hz : rdev = 0
                  · have hsend : env.sendOk (hide_path (tb ++ rel)) = true := by
                      have h2 := hit
                      unfold injectItemOk at h2
                      dsimp only at h2
                      rw [if_pos hz] at h2
                      exact h2
                    simp only [List.cons_append, injectLoop, List.append_eq]
                    rw [if_pos hz, if_pos hsend, ih hrest]
                    simp [List.flatMap_cons, emitFor, if_pos hz, List.append_assoc]
                  · simp only [List.cons_append, injectLoop, List.append_eq]
                    rw [if_neg hz, ih hrest]
                    simp [List.flatMap_cons, emitFor, if_neg hz]
          | dir =>
              have hsend : env.sendOk (inject_dir (tb ++ rel)) = true := hit
              simp only [List.cons_append, injectLoop, List.append_eq]
              rw [if_pos hsend, ih hrest]
              simp [List.flatMap_cons, emitFor, List.append_assoc]
          | other =>
              simp only [List.cons_append, injectLoop, List.append_eq]
              rw [ih hrest]
              simp [List.flatMap_cons, emitFor]

theorem deleteLoop_bad_head {env : ProtoEnv} {tb : FsPath}
    {bad : WalkItem} {rest : List WalkItem} {acc : List Cmd}
    (hbad : deleteItemOk env tb bad = false) :
    (deleteLoop env tb (bad :: rest) acc).1 = acc ∧
    (deleteLoop env tb (bad :: rest) acc).2.isSome = true := by
  cases bad with
  | readErr => exact ⟨rfl, rfl⟩
  | entry rel kind =>
      have hsend : env.sendOk (delete_rule (tb ++ rel)) = false := hbad
      simp only [deleteLoop]
      rw [if_neg (by rw [hsend]; exact Bool.false_ne_true)]
      exact ⟨rfl, rfl⟩

theorem deleteLoop_ok_skip {env : ProtoEnv} {tb : FsPath} :
    ∀ {pre suf : List WalkItem} {acc : List Cmd},
      (∀ it ∈ pre, deleteItemOk env tb it = true) →
      deleteLoop env tb (pre ++ suf) acc =
        deleteLoop env tb suf (acc ++ pre.flatMap (emitDeleteFor tb)) := by
  intro pre
  induction pre with
  | nil =>
      intro suf acc _
      simp
  | cons it rest ih =>
      intro suf acc hall
      have hit := hall it (List.mem_cons_self it rest)
      have hrest : ∀ x ∈ rest, deleteItemOk env tb x = true :=
        fun x hx => hall x (List.mem_cons_of_mem it hx)
      cases it with
      | readErr => exact Bool.noConfusion hit
      | entry rel kind =>
          have hsend : env.sendOk (delete_rule (tb ++ rel)) = true := hit
          simp only [List.cons_append, deleteLoop, List.append_eq]
          rw [if_pos hsend, ih hrest]
          simp [List.flatMap_cons, emitDeleteFor, List.append_assoc]

/-- Claim C10: when processing a traversal item fails (a failed command
write, a traversal read error, or a failed metadata read),
`inject_directory` and `delete_directory_rules` return the error at
once: the commands already sent for earlier entries stand, and no
command is emitted for any entry after the failing one. -/
theorem claim10_error_aborts_leaving_sent_commands
    {env : ProtoEnv} {tb mp : FsPath} {md : ModuleDir}
    {pre : List WalkItem} {bad : WalkItem} {rest : List WalkItem}
    (hp : md.present = true) (hd : md.isDirectory = true)
    (hwalk : md.walk = pre ++ bad :: rest)
    (hroot : env.sendOk (inject_dir tb) = true)
    (hpreI : ∀ it ∈ pre, injectItemOk env tb mp it = true)
    (hbadI : injectItemOk env tb mp bad = false)
    (hpreD : ∀ it ∈ pre, deleteItemOk env tb it = true)
    (hbadD : deleteItemOk env tb bad = false) :
    ((inject_directory env tb mp md).1 =
        inject_dir tb :: pre.flatMap (emitFor tb mp) ∧
      (inject_directory env tb mp md).2.isSome = true) ∧
    ((delete_directory_rules env tb mp md).1 = pre.flatMap (emitDeleteFor tb) ∧
      (delete_directory_rules env tb mp md).2.isSome = true) := by
  constructor
  · unfold inject_directory
    rw [hp, hd]
    simp only [Bool.not_true, Bool.false_or, Bool.false_eq_true, if_false]
    rw [if_pos hroot, hwalk, injectLoop_ok_skip hpreI]
    have hb := @injectLoop_bad_head env tb mp bad rest
      ([inject_dir tb] ++ pre.flatMap (emitFor tb mp)) hbadI
    exact ⟨hb.1, hb.2⟩
  · unfold delete_directory_rules
    rw [hp, hd]
    simp only [Bool.not_true, Bool.false_or, Bool.false_eq_true, if_false]
    rw [hwalk, deleteLoop_ok_skip hpreD]
    have hb := @deleteLoop_bad_head env tb bad rest
      ([] ++ pre.flatMap (emitDeleteFor tb)) hbadD
    exact ⟨hb.1, hb.2⟩

theorem claim10_witness :
    ((inject_directory proto8 tb8 mp8 md10).1 =
        inject_dir tb8 :: [WalkItem.entry ["a.txt"] EntryKind.file].flatMap (emitFor tb8 mp8) ∧
      (inject_directory proto8 tb8 mp8 md10).2.isSome = true) ∧
    ((delete_directory_rules proto8 tb8 mp8 md10).1 =
        [WalkItem.entry ["a.txt"] EntryKind.file].flatMap (emitDeleteFor tb8) ∧
      (delete_directory_rules proto8 tb8 mp8 md10).2.isSome = true) :=
  @claim10_error_aborts_leaving_sent_commands proto8 tb8 mp8 md10
    [WalkItem.entry ["a.txt"] EntryKind.file] WalkItem.readErr
    [WalkItem.entry ["b.txt"] EntryKind.file]
    rfl rfl (by decide) rfl (by decide) rfl (by decide) rfl

end HybridMount
